import Mathlib

/-!
Verification of the differential-expression core of the prairie-genomics-suite
repository.  The two app variants are embedded separately:

* `WebApp` models `prairie_genomics_web_app.py` (`find_target_gene`,
  `group_samples`, `run_differential_expression` and the analysis pipeline
  around them).
* `Enhanced` models `prairie_genomics_enhanced.py`
  (`create_expression_groups`, `run_simple_differential_expression`).

Expression values are embedded as rationals.  The base-2 logarithm and the
two-sided p-value of the t distribution are transcendental functions of
external libraries (numpy, scipy); they are carried as explicit function
parameters (`L` for `np.log2`, `pv` for the map from squared t statistic and
degrees of freedom to a p-value).  A `none` value stands for IEEE NaN.
-/

namespace Prairie

/-- Expression values of one gene row, one entry per sample column. -/
abbrev Row := List ℚ

/-- Mean of a list of values, `pandas.Series.mean`; 0 on the empty list
(the guards of the callers keep the empty case out of use). -/
def listMean (xs : List ℚ) : ℚ := xs.sum / xs.length

/-- Sample variance with one delta degree of freedom, as numpy and scipy use
inside `ttest_ind`. -/
def svar (xs : List ℚ) : ℚ :=
  (xs.map (fun x => (x - listMean xs) ^ 2)).sum / ((xs.length : ℚ) - 1)

/-- Model of `scipy.stats.ttest_ind(a, b)` with the default pooled variance,
returning only the two-sided p-value.  `pv t2 df` abstracts the map from the
squared t statistic and the degrees of freedom to the p-value (a fixed
external function of scipy; the statistic itself is a square root, so the
embedding carries its square, which determines the two-sided p-value).
`none` models a NaN result: fewer than two values in a slice, or a zero
denominator together with equal means.  A zero denominator with distinct
means is an infinite statistic, whose two-sided p-value is 0. -/
def ttest_ind (pv : ℚ → ℕ → ℚ) (a b : Row) : Option ℚ :=
  if a.length < 2 ∨ b.length < 2 then none
  else
    let n1 : ℚ := a.length
    let n2 : ℚ := b.length
    let df : ℕ := a.length + b.length - 2
    let sp2 := ((n1 - 1) * svar a + (n2 - 1) * svar b) / (n1 + n2 - 2)
    let denom := sp2 * (1 / n1 + 1 / n2)
    let diff := listMean a - listMean b
    if denom = 0 then (if diff = 0 then none else some 0)
    else some (pv (diff ^ 2 / denom) df)

/-- Slice a row at the given sample positions, `df.loc[gene, samples]`. -/
def sliceIdx (row : Row) (idxs : List ℕ) : Row := idxs.map fun i => row.getD i 0

/-- Positions of the samples whose value satisfies `p`, in column order
(pandas boolean filtering preserves order). -/
def idxsWhere (row : Row) (p : ℚ → Bool) : List ℕ :=
  (List.range row.length).filter fun i => p (row.getD i 0)

/-- Tail of `uniqueFirst`: keep the elements not seen before, tracking the
already-seen ones. -/
def uniqueAux (seen : List String) : List String → List String
  | [] => []
  | x :: xs =>
    if x ∈ seen then uniqueAux seen xs else x :: uniqueAux (x :: seen) xs

/-- Distinct elements in order of first appearance, `pandas.Series.unique`. -/
def uniqueFirst (l : List String) : List String := uniqueAux [] l

/-- Linear-interpolation quantile on rationals, the default of
`pandas.Series.quantile` and `numpy.percentile`: with the values sorted
ascending, position `p * (n - 1)` is split into integer part `i` and
fractional part, and the result interpolates between the values at
positions `i` and `i + 1`. -/
def quantileLinear (xs : List ℚ) (p : ℚ) : ℚ :=
  let s := List.insertionSort (· ≤ ·) xs
  let n := s.length
  if n = 0 then 0
  else
    let pos : ℚ := p * ((n : ℚ) - 1)
    let i : ℕ := (⌊pos⌋).toNat
    let fr : ℚ := pos - (⌊pos⌋ : ℚ)
    let a := s.getD i 0
    let b := s.getD (i + 1) a
    a + (b - a) * fr

/-- `pandas.Series.median`, the 0.5 linear-interpolation quantile. -/
def medianQ (xs : List ℚ) : ℚ := quantileLinear xs (1 / 2)

/-- Substring containment, the Python `in` operator on strings. -/
def strContains (hay needle : String) : Bool := decide (needle.data <:+: hay.data)

/-- Character-wise uppercase, the Python `str.upper()` on the ASCII gene
identifiers this code handles (`String.toUpper` maps the same characters
but does not reduce inside the kernel). -/
def strUpper (s : String) : String := ⟨s.data.map Char.toUpper⟩

/-- Part of a string before the first dot, the Python `s.split(".")[0]`
used to strip Ensembl version suffixes. -/
def beforeDot (s : String) : String := ⟨s.data.takeWhile fun c => c ≠ '.'⟩

/-- Benjamini-Hochberg scaling: the element with `k` predecessors in the
ascending order has rank `k + 1` and is multiplied by `m / (k + 1)`. -/
def bhScaledFrom (m : ℕ) : ℕ → List ℚ → List ℚ
  | _, [] => []
  | k, p :: rest => p * m / (k + 1) :: bhScaledFrom m (k + 1) rest

/-- Running minimum from the largest rank down to the smallest: entry `i`
of the result is the minimum of entries `i, i+1, ...` of the input. -/
def suffixMins : List ℚ → List ℚ
  | [] => []
  | x :: xs => min x ((suffixMins xs).headD x) :: suffixMins xs

/-- Modelled from the spec: the multiple-testing correction of §4.4 is
performed by external library code (`scipy.stats.false_discovery_control`
in the web variant, `statsmodels multipletests(method=fdr_bh)` in the
enhanced variant), which is not part of src/.  Following the words of the
spec: sort the p-values ascending, multiply rank `i` (1-indexed, `m` tests)
by `m / i`, take the running minimum from the largest rank downwards, clip
to the unit interval, and return the result in the order of the input.
Tied p-values receive equal adjusted values (`bh_tie_eq` below), so looking
each input value up at its first position in the sorted list agrees with
the argsort-inverse bookkeeping of the libraries. -/
def bh_adjust (ps : List ℚ) : List ℚ :=
  let m := ps.length
  let s := List.insertionSort (· ≤ ·) ps
  let adjSorted := (suffixMins (bhScaledFrom m 0 s)).map fun q => min 1 (max 0 q)
  ps.map fun p => adjSorted.getD (s.indexOf p) 1

/-- Validity check of one p-value as scipy performs it: a number inside the
unit interval; NaN (`none`) fails the check. -/
def validP : Option ℚ → Bool
  | some q => decide (0 ≤ q) && decide (q ≤ 1)
  | none => false

/-- Modelled from the spec: `scipy.stats.false_discovery_control` validates
that every input lies in the unit interval (NaN fails the comparison) and
raises `ValueError` otherwise, then applies the Benjamini-Hochberg
procedure of §4.4. -/
def false_discovery_control (ps : List (Option ℚ)) : Except String (List ℚ) :=
  if ps.all validP then .ok (bh_adjust (ps.filterMap id))
  else .error "ValueError: ps must include only numbers between 0 and 1"

/-- Modelled from the spec: `statsmodels multipletests(method=fdr_bh)` does
not validate its input; NaN p-values sort last, and the running minimum
taken from the largest rank downwards starts at those NaN entries, whose
propagation through `np.minimum` turns every adjusted value into NaN.  On
NaN-free input it is the Benjamini-Hochberg procedure of §4.4 (statsmodels
clips only above 1, which agrees with clipping to the unit interval because
the running minima of the scaled nonnegative p-values stay nonnegative). -/
def multipletests_fdr_bh (ps : List (Option ℚ)) : List (Option ℚ) :=
  if ps.all Option.isSome then (bh_adjust (ps.filterMap id)).map some
  else ps.map fun _ => none

/-- Grouping methods of the web variant radio control: "Median split",
"Quartile split (top 25% vs bottom 25%)", "Custom thresholds". -/
inductive WMethod
  | median
  | quartile
  | custom
deriving DecidableEq

/-- Grouping methods of the enhanced variant: "Median split",
"Quartile split", "Tertile split". -/
inductive EMethod
  | median
  | quartile
  | tertile
deriving DecidableEq

/-- Significance labels of `np.select(conditions, choices, default=ns)`. -/
inductive Significance
  | up
  | down
  | ns
deriving DecidableEq

namespace WebApp

/-- Embedding of `find_target_gene` of `prairie_genomics_web_app.py`:
first an exact case-insensitive match of the target against the values of
the symbol map (`sm`, an association list in dict insertion order),
returning the first matrix key containing that entry's identifier as a
substring; then a case-insensitive substring scan of the matrix keys;
`none` when both loops fall through. -/
def find_target_gene (sm : List (String × String)) (keys : List String)
    (target : String) : Option String :=
  match sm.findSome? (fun gs =>
      if strUpper gs.2 = strUpper target then
        keys.find? fun k => strContains k gs.1
      else none) with
  | some k => some k
  | none => keys.find? fun k => strContains (strUpper k) (strUpper target)

/-- Embedding of `group_samples`: sample positions of the High and the Low
group, in column order.  The custom-thresholds branch compares against
`high_threshold` and `low_threshold`, which are local variables of
`analysis_section` and are not in scope inside `group_samples`; reaching
that branch raises a Python `NameError`, modelled as the error case. -/
def group_samples (row : Row) : WMethod → Except String (List ℕ × List ℕ)
  | .median =>
      let threshold := medianQ row
      .ok (idxsWhere row fun v => decide (threshold ≤ v),
           idxsWhere row fun v => decide (v < threshold))
  | .quartile =>
      let q75 := quantileLinear row (3 / 4)
      let q25 := quantileLinear row (1 / 4)
      .ok (idxsWhere row fun v => decide (q75 ≤ v),
           idxsWhere row fun v => decide (v ≤ q25))
  | .custom => .error "NameError: name high_threshold is not defined"

/-- One result record of the web variant engine.  The two standard
deviation display fields of the source are square roots of rationals and
purely descriptive; they are not carried in the embedding. -/
structure WRecord where
  gene_id : String
  gene_symbol : String
  log2_fold_change : ℚ
  p_value : Option ℚ
  high_mean : ℚ
  low_mean : ℚ
deriving DecidableEq

/-- Embedding of `run_differential_expression`: per gene, slice the row at
the High and Low sample positions, skip the gene when either slice has
fewer than 3 values, run `scipy.stats.ttest_ind` on the raw slices, and
report `np.log2((high_mean + 1e-6) / (low_mean + 1e-6))` as fold change.
The `try/except` of the source is vacuous here: `ttest_ind` signals
degeneracy through NaN, not through an exception.  `webDERecord` is the
loop body for one gene, `run_differential_expression` the loop. -/
def webDERecord (pv : ℚ → ℕ → ℚ) (L : ℚ → ℚ) (sm : List (String × String))
    (hi lo : List ℕ) (gr : String × Row) : Option WRecord :=
  let hiE := sliceIdx gr.2 hi
  let loE := sliceIdx gr.2 lo
  if hiE.length < 3 ∨ loE.length < 3 then none
  else
    let cleanId := beforeDot gr.1
    some { gene_id := gr.1
           gene_symbol := (sm.lookup cleanId).getD cleanId
           log2_fold_change :=
             L ((listMean hiE + 1 / 1000000) / (listMean loE + 1 / 1000000))
           p_value := ttest_ind pv hiE loE
           high_mean := listMean hiE
           low_mean := listMean loE }

def run_differential_expression (pv : ℚ → ℕ → ℚ) (L : ℚ → ℚ)
    (sm : List (String × String)) (data : List (String × Row))
    (hi lo : List ℕ) : List WRecord :=
  data.filterMap (webDERecord pv L sm hi lo)

/-- Embedding of the significance labelling of `analysis_section`,
`np.select` over the two threshold conditions with default `ns`. -/
def selectSignificance (adjp logfc pth fcth : ℚ) : Significance :=
  if adjp < pth ∧ fcth < logfc then .up
  else if adjp < pth ∧ logfc < -fcth then .down
  else .ns

/-- One row of the final web variant table: engine record, adjusted
p-value, significance label. -/
structure WFinal where
  base : WRecord
  adj_p_value : ℚ
  significance : Significance
deriving DecidableEq

/-- Ordering of final rows by adjusted p-value, the `sort_values` key. -/
def wLe (a b : WFinal) : Prop := a.adj_p_value ≤ b.adj_p_value

instance : DecidableRel wLe := fun a b =>
  inferInstanceAs (Decidable (a.adj_p_value ≤ b.adj_p_value))

instance : IsTotal WFinal wLe := ⟨fun a b => le_total a.adj_p_value b.adj_p_value⟩

instance : IsTrans WFinal wLe := ⟨fun _ _ _ h h2 => le_trans h h2⟩

/-- Embedding of the analysis tail of `analysis_section`: run the engine,
apply `scipy.stats.false_discovery_control` to the p-value column, label
each row with `np.select`, and sort the table by ascending adjusted
p-value (`sort_values`). -/
def analysis_run (pv : ℚ → ℕ → ℚ) (L : ℚ → ℚ) (sm : List (String × String))
    (data : List (String × Row)) (hi lo : List ℕ) (pth fcth : ℚ) :
    Except String (List WFinal) :=
  let tab := run_differential_expression pv L sm data hi lo
  match false_discovery_control (tab.map (·.p_value)) with
  | .error e => .error e
  | .ok adj =>
      let merged := List.zipWith
        (fun r a => WFinal.mk r a (selectSignificance a r.log2_fold_change pth fcth))
        tab adj
      .ok (List.insertionSort wLe merged)

end WebApp

namespace Enhanced

/-- Embedding of the grouping part of `create_expression_groups` of
`prairie_genomics_enhanced.py`: one label per sample column.  Median split
uses `np.where` (every sample gets High or Low, ties to High); quartile
and tertile splits use an if/elif/else chain, so every sample gets exactly
one of High, Low, Medium. -/
def create_expression_groups (row : Row) : EMethod → List String
  | .median =>
      let threshold := medianQ row
      row.map fun v => if threshold ≤ v then "High" else "Low"
  | .quartile =>
      let q75 := quantileLinear row (3 / 4)
      let q25 := quantileLinear row (1 / 4)
      row.map fun v =>
        if q75 ≤ v then "High" else if v ≤ q25 then "Low" else "Medium"
  | .tertile =>
      let q67 := quantileLinear row (67 / 100)
      let q33 := quantileLinear row (33 / 100)
      row.map fun v =>
        if q67 ≤ v then "High" else if v ≤ q33 then "Low" else "Medium"

/-- Embedding of the gene-resolution part of `create_expression_groups`:
its two loops break out at the first hit exactly as `find_target_gene` of
the web variant does, and a miss raises `ValueError`. -/
def resolve_target (sm : List (String × String)) (keys : List String)
    (target : String) : Except String String :=
  match WebApp.find_target_gene sm keys target with
  | some k => .ok k
  | none => .error "ValueError: gene not found in expression data"

/-- One result record of `run_simple_differential_expression`.  The `stat`
column of the source is a square root of a rational (the t statistic) and
is determined up to sign by the p-value input `pv`; it is not carried in
the embedding. -/
structure ERecord where
  gene : String
  baseMean : ℚ
  log2FoldChange : ℚ
  pvalue : Option ℚ
  padj : Option ℚ
deriving DecidableEq

/-- Embedding of `run_simple_differential_expression`: require exactly two
distinct labels in the condition column (else `ValueError`), slice each
gene row at the two label groups (first-appearance order of
`pandas.unique`), transform both slices by `log2(x + 1)`, t-test the
transformed slices (group 2 first, matching `ttest_ind(log_expr2,
log_expr1)`), report the difference of transformed means as fold change,
and append the `multipletests(method=fdr_bh)` adjusted p-value column.
`labelPositions` embeds the row selection
`design_matrix[condition == label].index` (row order preserved),
`simpleDERecord` the loop body for one gene, and
`run_simple_differential_expression` the whole engine. -/
def labelPositions (design : List String) (lab : String) : List ℕ :=
  (List.range design.length).filter fun i => design.getD i "" == lab

def simpleDERecord (pv : ℚ → ℕ → ℚ) (L : ℚ → ℚ) (idx1 idx2 : List ℕ)
    (gr : String × Row) : ERecord :=
  let logE1 := (sliceIdx gr.2 idx1).map fun x => L (x + 1)
  let logE2 := (sliceIdx gr.2 idx2).map fun x => L (x + 1)
  ERecord.mk gr.1 (listMean gr.2) (listMean logE2 - listMean logE1)
    (ttest_ind pv logE2 logE1) none

def run_simple_differential_expression (pv : ℚ → ℕ → ℚ) (L : ℚ → ℚ)
    (data : List (String × Row)) (design : List String) :
    Except String (List ERecord) :=
  let labels := uniqueFirst design
  if labels.length ≠ 2 then .error "Simple DE requires exactly 2 groups"
  else
    let idx1 := labelPositions design (labels.getD 0 "")
    let idx2 := labelPositions design (labels.getD 1 "")
    let recs := data.map (simpleDERecord pv L idx1 idx2)
    let padj := multipletests_fdr_bh (recs.map (·.pvalue))
    .ok (List.zipWith (fun r p => { r with padj := p }) recs padj)

end Enhanced

/-- Concrete stand-in for the p-value map of scipy used in closed
evaluations: strictly decreasing in the squared statistic with values in
the half-open unit interval, the shape of a genuine two-sided p-value. -/
def pvInst : ℚ → ℕ → ℚ := fun t2 _ => 1 / (1 + t2)

/-- Concrete stand-in for `np.log2` used in closed evaluations: it agrees
with the real base-2 logarithm at every point at which those evaluations
apply it (the powers of two 1, 2, 4, 8). -/
def log2Inst : ℚ → ℚ := fun q =>
  if q = 1 then 0 else if q = 2 then 1 else if q = 4 then 2
  else if q = 8 then 3 else 0

/-- Concrete data used by several evaluations: two groups of three
samples, all transformed values landing on exact powers of two. -/
def exData : List (String × Row) := [("G1", [0, 1, 0, 1, 0, 1]), ("G2", [0, 0, 1, 7, 7, 3])]

def exDesign : List String := ["A", "A", "A", "B", "B", "B"]

def exRecs : List Enhanced.ERecord :=
  [⟨"G1", 1 / 2, 1 / 3, some (2 / 3), some (2 / 3)⟩,
   ⟨"G2", 3, 7 / 3, some (2 / 51), some (4 / 51)⟩]

/-- Concrete data with a retained group of exactly 2 samples. -/
def smallData : List (String × Row) := [("G1", [0, 1, 3, 7, 3])]

def smallDesign : List String := ["A", "A", "B", "B", "B"]


/-! ### Helper lemmas -/

theorem uniqueAux_length :
    ∀ (l seen : List String),
      (uniqueAux seen l).length = (l.toFinset \ seen.toFinset).card := by
  intro l
  induction l with
  | nil => intro seen; simp [uniqueAux]
  | cons x xs ih =>
    intro seen
    rw [uniqueAux]
    by_cases hx : x ∈ seen
    · rw [if_pos hx, ih seen, List.toFinset_cons,
        Finset.insert_sdiff_of_mem _ (List.mem_toFinset.2 hx)]
    · rw [if_neg hx, List.length_cons, ih (x :: seen), List.toFinset_cons,
        List.toFinset_cons, Finset.sdiff_insert,
        Finset.insert_sdiff_of_not_mem _ (fun hc => hx (List.mem_toFinset.1 hc))]
      by_cases hx2 : x ∈ xs.toFinset \ seen.toFinset
      · rw [Finset.card_erase_add_one hx2, Finset.card_insert_of_mem hx2]
      · rw [Finset.erase_eq_of_not_mem hx2, Finset.card_insert_of_not_mem hx2]

theorem uniqueFirst_length (l : List String) :
    (uniqueFirst l).length = l.toFinset.card := by
  rw [uniqueFirst, uniqueAux_length l []]
  simp

/-! ### C7 -/

/-- Claim C7: the custom-thresholds branch of `group_samples` compares
against `high_threshold` and `low_threshold`, locals of `analysis_section`
that are never passed in; selecting the custom method therefore raises a
`NameError` instead of grouping by the caller-supplied cuts.  This theorem
evaluates the embedded code at a concrete failing input. -/
theorem group_samples_custom_raises_name_error :
    WebApp.group_samples [1, 2, 3, 4] .custom =
      .error "NameError: name high_threshold is not defined" := rfl

/-! ### C5 -/

/-- Claim C5: with a nonnegative fold-change threshold (the web UI slider
enforces a minimum of 0.5), the `np.select` classifier returns `up`
exactly when `adjusted_p < p_threshold` and `log2FC > fc_threshold`,
`down` exactly when `adjusted_p < p_threshold` and `log2FC < -fc_threshold`,
and `ns` otherwise; the label is always one of the three, the `up` and
`down` conditions are mutually exclusive, and the enhanced variant's
significant-and-positive filter describes the same `up` set. -/
theorem select_significance_rule (adjp logfc pth fcth : ℚ) (hfc : 0 ≤ fcth) :
    (WebApp.selectSignificance adjp logfc pth fcth = .up ∨
     WebApp.selectSignificance adjp logfc pth fcth = .down ∨
     WebApp.selectSignificance adjp logfc pth fcth = .ns)
    ∧ (WebApp.selectSignificance adjp logfc pth fcth = .up ↔
        adjp < pth ∧ fcth < logfc)
    ∧ (WebApp.selectSignificance adjp logfc pth fcth = .down ↔
        adjp < pth ∧ logfc < -fcth)
    ∧ ¬((adjp < pth ∧ fcth < logfc) ∧ (adjp < pth ∧ logfc < -fcth))
    ∧ ((adjp < pth ∧ fcth < |logfc| ∧ 0 < logfc) ↔ (adjp < pth ∧ fcth < logfc)) := by
  have hexcl : ¬((adjp < pth ∧ fcth < logfc) ∧ (adjp < pth ∧ logfc < -fcth)) := by
    rintro ⟨⟨-, h1⟩, ⟨-, h2⟩⟩
    have : logfc < logfc := lt_trans h2 (lt_of_le_of_lt (neg_nonpos.2 hfc) (lt_of_le_of_lt hfc h1))
    exact lt_irrefl _ this
  refine ⟨?_, ?_, ?_, hexcl, ?_⟩
  · unfold WebApp.selectSignificance
    split
    · exact Or.inl rfl
    · split
      · exact Or.inr (Or.inl rfl)
      · exact Or.inr (Or.inr rfl)
  · unfold WebApp.selectSignificance
    split
    · simp_all
    · split <;> simp_all
  · unfold WebApp.selectSignificance
    split
    · rename_i h
      constructor
      · intro hud; exact absurd hud (by simp)
      · intro hdn; exact absurd ⟨h, hdn⟩ hexcl
    · split <;> simp_all
  · constructor
    · rintro ⟨h1, h2, h3⟩
      exact ⟨h1, by rwa [abs_of_pos h3] at h2⟩
    · rintro ⟨h1, h2⟩
      have hpos : 0 < logfc := lt_of_le_of_lt hfc h2
      exact ⟨h1, by rwa [abs_of_pos hpos], hpos⟩

/-- Witness for C5 at concrete thresholds. -/
theorem select_significance_rule_witness :
    WebApp.selectSignificance (1 / 100) 2 (1 / 20) 1 = .up :=
  ((select_significance_rule (1 / 100) 2 (1 / 20) 1 (by norm_num)).2.1).2
    (by norm_num)

/-! ### C10 -/

/-- Claim C10: the enhanced t-test engine fails with `ValueError` exactly
when the condition column holds a number of distinct labels different from
2, and in that case returns no records at all; with exactly two distinct
labels it succeeds and returns one record per gene. -/
theorem run_simple_two_group_check (pv : ℚ → ℕ → ℚ) (L : ℚ → ℚ)
    (data : List (String × Row)) (design : List String) :
    (Enhanced.run_simple_differential_expression pv L data design =
        .error "Simple DE requires exactly 2 groups" ↔
      design.toFinset.card ≠ 2)
    ∧ (design.toFinset.card = 2 →
        ∃ recs, Enhanced.run_simple_differential_expression pv L data design =
          .ok recs) := by
  have hlen := uniqueFirst_length design
  constructor
  · simp only [Enhanced.run_simple_differential_expression]
    split
    · rename_i h
      rw [hlen] at h
      simp [h]
    · rename_i h
      rw [hlen] at h
      simp only [reduceCtorEq, false_iff, ne_eq, not_not]
      omega
  · intro h2
    simp only [Enhanced.run_simple_differential_expression]
    split
    · rename_i h
      rw [hlen] at h
      omega
    · exact ⟨_, rfl⟩

/-- Witness for C10: a three-label High/Medium/Low design (the quartile or
tertile split) is rejected outright. -/
theorem run_simple_two_group_check_witness :
    Enhanced.run_simple_differential_expression pvInst log2Inst
      [("G1", [1, 2, 3])] ["High", "Medium", "Low"] =
      .error "Simple DE requires exactly 2 groups" :=
  (run_simple_two_group_check pvInst log2Inst
    [("G1", [1, 2, 3])] ["High", "Medium", "Low"]).1.mpr (by decide)

/-! ### C3 -/

/-- Claim C3: gene resolution first tries an exact case-insensitive match
of the target against the symbol-map values, returning the first matrix
key containing that entry's identifier as a substring, then falls back to
a case-insensitive substring scan of the matrix keys; it fails (resolver
`none`, surfaced as the gene-not-found error) exactly when neither step
yields a key, the first match in iteration order wins, and the concrete
TP53 example resolves to ENSG1.3 in any letter case. -/
theorem find_target_gene_spec :
    (∀ (sm : List (String × String)) (keys : List String) (t : String),
      WebApp.find_target_gene sm keys t = none ↔
        (∀ gs ∈ sm, strUpper gs.2 = strUpper t →
          ∀ k ∈ keys, strContains k gs.1 = false) ∧
        (∀ k ∈ keys, strContains (strUpper k) (strUpper t) = false))
    ∧ WebApp.find_target_gene [("ENSG1", "TP53")] ["ENSG1.3"] "tp53" = some "ENSG1.3"
    ∧ WebApp.find_target_gene [("ENSG1", "TP53")] ["ENSG1.3"] "TP53" = some "ENSG1.3"
    ∧ WebApp.find_target_gene [("ENSG1", "TP53")] ["ENSG1.3"] "tP53" = some "ENSG1.3"
    ∧ WebApp.find_target_gene [] ["AENSG1B", "ENSG1"] "ensg1" = some "AENSG1B"
    ∧ Enhanced.resolve_target [("ENSG1", "TP53")] ["XYZ"] "BRCA1" =
        .error "ValueError: gene not found in expression data" := by
  refine ⟨?_, by decide, by decide, by decide, by decide, by rfl⟩
  intro sm keys t
  unfold WebApp.find_target_gene
  constructor
  · intro h
    cases hfs : sm.findSome? (fun gs =>
        if strUpper gs.2 = strUpper t then keys.find? fun k => strContains k gs.1
        else none) with
    | some k =>
      rw [hfs] at h
      exact absurd h (by simp)
    | none =>
      rw [hfs] at h
      refine ⟨?_, ?_⟩
      · intro gs hgs hup k hk
        have hf := (List.findSome?_eq_none_iff.mp hfs) gs hgs
        rw [if_pos hup] at hf
        have hc := (List.find?_eq_none.mp hf) k hk
        simpa using hc
      · intro k hk
        have hc := (List.find?_eq_none.mp h) k hk
        simpa using hc
  · rintro ⟨h1, h2⟩
    have hfs : (sm.findSome? (fun gs =>
        if strUpper gs.2 = strUpper t then keys.find? fun k => strContains k gs.1
        else none)) = none := by
      rw [List.findSome?_eq_none_iff]
      intro gs hgs
      by_cases hup : strUpper gs.2 = strUpper t
      · rw [if_pos hup, List.find?_eq_none]
        intro k hk
        simp [h1 gs hgs hup k hk]
      · rw [if_neg hup]
    rw [hfs, List.find?_eq_none]
    intro k hk
    simp [h2 k hk]



/-! ### C6 -/

theorem mem_idxsWhere (row : Row) (p : ℚ → Bool) (i : ℕ) :
    i ∈ idxsWhere row p ↔ i < row.length ∧ p (row.getD i 0) = true := by
  simp [idxsWhere, List.mem_filter, List.mem_range]

theorem length_filter_add_le {α : Type} (p q : α → Bool) :
    ∀ l : List α, (∀ a ∈ l, ¬(p a = true ∧ q a = true)) →
      (l.filter p).length + (l.filter q).length ≤ l.length := by
  intro l
  induction l with
  | nil => intro _; simp
  | cons a rest ih =>
    intro h
    have hrest := ih fun x hx => h x (by simp [hx])
    have ha := h a (by simp)
    by_cases hp : p a = true
    · have hq : q a = false := by
        cases hqv : q a
        · rfl
        · exact absurd ⟨hp, hqv⟩ ha
      simp only [List.filter_cons, hp, if_true, hq, List.length_cons]
      simp only [Bool.false_eq_true, if_false]
      omega
    · have hp2 : p a = false := by simpa using hp
      cases hq : q a
      · simp only [List.filter_cons, hp2, hq, Bool.false_eq_true, if_false,
          List.length_cons]
        omega
      · simp only [List.filter_cons, hp2, hq, Bool.false_eq_true, if_false,
          if_true, List.length_cons]
        omega

theorem length_filter_add_eq {α : Type} (p q : α → Bool) :
    ∀ l : List α, (∀ a ∈ l, (p a = true ↔ q a = false)) →
      (l.filter p).length + (l.filter q).length = l.length := by
  intro l
  induction l with
  | nil => intro _; simp
  | cons a rest ih =>
    intro h
    have hrest := ih fun x hx => h x (by simp [hx])
    have ha := h a (by simp)
    cases hp : p a
    · have hq : q a = true := by
        cases hqv : q a
        · rw [hp] at ha
          simp [hqv] at ha
        · rfl
      simp only [List.filter_cons, hp, hq, Bool.false_eq_true, if_false, if_true,
        List.length_cons]
      omega
    · have hq : q a = false := ha.1 hp
      simp only [List.filter_cons, hp, hq, Bool.false_eq_true, if_false, if_true,
        List.length_cons]
      omega

/-- Claim C6 (amended): the web median split puts every sample in exactly
one group; the web quartile split puts every sample in at most one group
and keeps the size sum at or below the sample count provided the two
percentiles are distinct (when the 25th and 75th percentiles coincide,
every tied sample lands in both groups, see the counterexample; the custom
path never produces an assignment, see C7); the enhanced variant labels
every sample exactly once, so High and Low sizes sum to at most the sample
count, with equality for the median split. -/
theorem stratification_at_most_one_group :
    (∀ (row : Row) (hi lo : List ℕ),
      WebApp.group_samples row .median = .ok (hi, lo) →
      (∀ i, ¬(i ∈ hi ∧ i ∈ lo)) ∧ hi.length + lo.length = row.length)
    ∧ (∀ (row : Row) (hi lo : List ℕ),
      WebApp.group_samples row .quartile = .ok (hi, lo) →
      quantileLinear row (1 / 4) < quantileLinear row (3 / 4) →
      (∀ i, ¬(i ∈ hi ∧ i ∈ lo)) ∧ hi.length + lo.length ≤ row.length)
    ∧ (∀ (row : Row) (m : EMethod),
      (Enhanced.create_expression_groups row m).length = row.length
      ∧ (Enhanced.create_expression_groups row m).count "High" +
          (Enhanced.create_expression_groups row m).count "Low" ≤ row.length
      ∧ (m = .median →
          (Enhanced.create_expression_groups row m).count "High" +
            (Enhanced.create_expression_groups row m).count "Low" = row.length)) := by
  refine ⟨?_, ?_, ?_⟩
  · intro row hi lo h
    simp only [WebApp.group_samples, Except.ok.injEq, Prod.mk.injEq] at h
    obtain ⟨hhi, hlo⟩ := h
    subst hhi
    subst hlo
    constructor
    · rintro i ⟨h1, h2⟩
      rw [mem_idxsWhere] at h1 h2
      have a1 := of_decide_eq_true h1.2
      have a2 := of_decide_eq_true h2.2
      exact absurd a1 (not_le.2 a2)
    · simp only [idxsWhere]
      rw [length_filter_add_eq _ _ _ ?_, List.length_range]
      intro a _
      constructor
      · intro hp
        have := of_decide_eq_true hp
        simpa using this
      · intro hq
        have := of_decide_eq_false hq
        simpa using this
  · intro row hi lo h hq
    simp only [WebApp.group_samples, Except.ok.injEq, Prod.mk.injEq] at h
    obtain ⟨hhi, hlo⟩ := h
    subst hhi
    subst hlo
    constructor
    · rintro i ⟨h1, h2⟩
      rw [mem_idxsWhere] at h1 h2
      have a1 := of_decide_eq_true h1.2
      have a2 := of_decide_eq_true h2.2
      exact absurd (le_trans a1 a2) (not_le.2 hq)
    · simp only [idxsWhere]
      have hle := length_filter_add_le
        (fun i => decide (quantileLinear row (3 / 4) ≤ row.getD i 0))
        (fun i => decide (row.getD i 0 ≤ quantileLinear row (1 / 4)))
        (List.range row.length) ?_
      · simpa using hle
      · rintro a _ ⟨hp, hq2⟩
        have a1 := of_decide_eq_true hp
        have a2 := of_decide_eq_true hq2
        exact absurd (le_trans a1 a2) (not_le.2 hq)
  · intro row m
    have hlen : (Enhanced.create_expression_groups row m).length = row.length := by
      cases m <;> simp [Enhanced.create_expression_groups]
    refine ⟨hlen, ?_, ?_⟩
    · simp only [List.count_eq_countP, List.countP_eq_length_filter]
      have hle := length_filter_add_le (fun x => x == "High") (fun x => x == "Low")
        (Enhanced.create_expression_groups row m) ?_
      · rw [hlen] at hle
        exact hle
      · rintro a _ ⟨h1, h2⟩
        rw [beq_iff_eq] at h1 h2
        subst h1
        exact absurd h2 (by decide)
    · intro hm
      subst hm
      simp only [List.count_eq_countP, List.countP_eq_length_filter]
      have heq := length_filter_add_eq (fun x => x == "High") (fun x => x == "Low")
        (Enhanced.create_expression_groups row .median) ?_
      · rw [hlen] at heq
        exact heq
      · intro a ha
        simp only [Enhanced.create_expression_groups, List.mem_map] at ha
        obtain ⟨v, _, hv⟩ := ha
        by_cases hc : medianQ row ≤ v
        · rw [if_pos hc] at hv
          subst hv
          constructor
          · intro _
            decide
          · intro _
            decide
        · rw [if_neg hc] at hv
          subst hv
          constructor
          · intro h1
            exact absurd h1 (by decide)
          · intro h1
            exact absurd h1 (by decide)

/-- Witness for C6: a 4-sample row with distinct percentiles; the median
split partitions it and the quartile split stays disjoint. -/
theorem stratification_at_most_one_group_witness :
    ((∀ i, ¬(i ∈ ([2, 3] : List ℕ) ∧ i ∈ ([0, 1] : List ℕ))) ∧ 2 + 2 = 4)
    ∧ ((∀ i, ¬(i ∈ ([3] : List ℕ) ∧ i ∈ ([0] : List ℕ))) ∧ 1 + 1 ≤ 4) :=
  ⟨stratification_at_most_one_group.1 [1, 2, 3, 4] [2, 3] [0, 1]
      (by with_unfolding_all rfl),
   stratification_at_most_one_group.2.1 [1, 2, 3, 4] [3] [0]
      (by with_unfolding_all rfl) (by with_unfolding_all decide)⟩

/-- Counterexample for C6 as stated: on a constant row the web quartile
split has coinciding percentiles; every sample is assigned to both High
and Low, and the group sizes sum to twice the sample count. -/
theorem quartile_overlap_counterexample :
    WebApp.group_samples [5, 5, 5, 5] .quartile = .ok ([0, 1, 2, 3], [0, 1, 2, 3])
    ∧ (0 : ℕ) ∈ ([0, 1, 2, 3] : List ℕ)
    ∧ ([0, 1, 2, 3] : List ℕ).length + ([0, 1, 2, 3] : List ℕ).length >
        ([5, 5, 5, 5] : Row).length :=
  ⟨by with_unfolding_all rfl, by decide, by decide⟩

/-! ### Structural lemmas about the engines -/

theorem bh_adjust_length (ps : List ℚ) : (bh_adjust ps).length = ps.length := by
  simp [bh_adjust]

theorem length_filterMap_id_all_isSome :
    ∀ ps : List (Option ℚ), ps.all Option.isSome = true →
      (ps.filterMap id).length = ps.length := by
  intro ps h
  induction ps with
  | nil => rfl
  | cons p rest ih =>
    cases p with
    | none => simp at h
    | some q =>
      simp only [List.all_cons, Bool.and_eq_true] at h
      simp only [List.filterMap_cons, id, List.length_cons]
      rw [ih h.2]

theorem multipletests_length (ps : List (Option ℚ)) :
    (multipletests_fdr_bh ps).length = ps.length := by
  unfold multipletests_fdr_bh
  split
  · rename_i h
    rw [List.length_map, bh_adjust_length, length_filterMap_id_all_isSome ps h]
  · exact List.length_map _ _

theorem length_filterMap_of_forall_some {α β : Type} (f : α → Option β) :
    ∀ l : List α, (∀ a ∈ l, (f a).isSome) → (l.filterMap f).length = l.length := by
  intro l
  induction l with
  | nil => intro _; rfl
  | cons a rest ih =>
    intro h
    obtain ⟨b, hb⟩ := Option.isSome_iff_exists.1 (h a (by simp))
    rw [List.filterMap_cons, hb, List.length_cons,
      ih fun x hx => h x (by simp [hx])]
    simp

theorem zipWith_padj_map {α : Type} (f : Enhanced.ERecord → α)
    (hf : ∀ r p, f { r with padj := p } = f r) :
    ∀ (as : List Enhanced.ERecord) (bs : List (Option ℚ)),
      as.length ≤ bs.length →
      (List.zipWith (fun r p => { r with padj := p }) as bs).map f = as.map f := by
  intro as
  induction as with
  | nil => intro bs _; rfl
  | cons a rest ih =>
    intro bs h
    cases bs with
    | nil => simp at h
    | cons b bs2 =>
      simp only [List.zipWith_cons_cons, List.map_cons]
      rw [hf, ih bs2 (by simpa using h)]

theorem run_simple_ok_eq (pv : ℚ → ℕ → ℚ) (L : ℚ → ℚ)
    (data : List (String × Row)) (design : List String)
    (h2 : (uniqueFirst design).length = 2) :
    Enhanced.run_simple_differential_expression pv L data design =
      .ok (List.zipWith (fun r p => { r with padj := p })
        (data.map (Enhanced.simpleDERecord pv L
          (Enhanced.labelPositions design ((uniqueFirst design).getD 0 ""))
          (Enhanced.labelPositions design ((uniqueFirst design).getD 1 ""))))
        (multipletests_fdr_bh ((data.map (Enhanced.simpleDERecord pv L
          (Enhanced.labelPositions design ((uniqueFirst design).getD 0 ""))
          (Enhanced.labelPositions design ((uniqueFirst design).getD 1 "")))).map
            fun r => r.pvalue))) := by
  simp only [Enhanced.run_simple_differential_expression]
  rw [if_neg (by omega)]

/-! ### C1 -/

/-- Claim C1 (amended): in the enhanced variant engine, both group slices
are transformed by `log2(x + 1)` before the two-sample t-test and the
reported fold change is the difference of the transformed means (group B,
the second distinct label, minus group A, the first); the web variant
engine instead reports `log2((high_mean + 1e-6) / (low_mean + 1e-6))`, the
log of the ratio of the raw means (and, per the counterexample, runs its
t-test on the raw slices). -/
theorem enhanced_engine_log_transform (pv : ℚ → ℕ → ℚ) (L : ℚ → ℚ)
    (data : List (String × Row)) (design : List String)
    (recs : List Enhanced.ERecord)
    (h : Enhanced.run_simple_differential_expression pv L data design = .ok recs) :
    ((recs.map fun r => (r.pvalue, r.log2FoldChange)) =
      data.map fun gr =>
        (ttest_ind pv
            ((sliceIdx gr.2 (Enhanced.labelPositions design
              ((uniqueFirst design).getD 1 ""))).map fun x => L (x + 1))
            ((sliceIdx gr.2 (Enhanced.labelPositions design
              ((uniqueFirst design).getD 0 ""))).map fun x => L (x + 1)),
          listMean ((sliceIdx gr.2 (Enhanced.labelPositions design
              ((uniqueFirst design).getD 1 ""))).map fun x => L (x + 1)) -
          listMean ((sliceIdx gr.2 (Enhanced.labelPositions design
              ((uniqueFirst design).getD 0 ""))).map fun x => L (x + 1))))
    ∧ ∀ (sm : List (String × String)) (hi lo : List ℕ) (r : WebApp.WRecord),
        r ∈ WebApp.run_differential_expression pv L sm data hi lo →
        r.log2_fold_change =
          L ((r.high_mean + 1 / 1000000) / (r.low_mean + 1 / 1000000)) := by
  constructor
  · by_cases h2 : (uniqueFirst design).length = 2
    · rw [run_simple_ok_eq pv L data design h2] at h
      simp only [Except.ok.injEq] at h
      subst h
      rw [zipWith_padj_map (fun r => (r.pvalue, r.log2FoldChange))
        (fun _ _ => rfl) _ _ (by simp [multipletests_length]),
        List.map_map]
      rfl
    · rw [Enhanced.run_simple_differential_expression] at h
      rw [if_pos h2] at h
      exact absurd h (by simp)
  · intro sm hi lo r hr
    rw [WebApp.run_differential_expression] at hr
    obtain ⟨gr, _, hsome⟩ := List.mem_filterMap.1 hr
    simp only [WebApp.webDERecord] at hsome
    split at hsome
    · exact absurd hsome (by simp)
    · simp only [Option.some.injEq] at hsome
      subst hsome
      rfl

/-- Witness for C1 at a concrete run of the enhanced engine. -/
theorem enhanced_engine_log_transform_witness :
    (exRecs.map fun r => (r.pvalue, r.log2FoldChange)) =
      exData.map fun gr =>
        (ttest_ind pvInst
            ((sliceIdx gr.2 (Enhanced.labelPositions exDesign
              ((uniqueFirst exDesign).getD 1 ""))).map fun x => log2Inst (x + 1))
            ((sliceIdx gr.2 (Enhanced.labelPositions exDesign
              ((uniqueFirst exDesign).getD 0 ""))).map fun x => log2Inst (x + 1)),
          listMean ((sliceIdx gr.2 (Enhanced.labelPositions exDesign
              ((uniqueFirst exDesign).getD 1 ""))).map fun x => log2Inst (x + 1)) -
          listMean ((sliceIdx gr.2 (Enhanced.labelPositions exDesign
              ((uniqueFirst exDesign).getD 0 ""))).map fun x => log2Inst (x + 1))) :=
  (enhanced_engine_log_transform pvInst log2Inst exData exDesign exRecs
    (by with_unfolding_all rfl)).1

/-- Counterexample for C1 as stated: the web variant engine, on a gene
whose High slice is `[1,1,1]` and Low slice is `[0,3,0]` (all transformed
values exact powers of two, ratio of raw means exactly 1), reports fold
change 0 and p-value 1 (t-test of the raw slices), while the claimed
`log2(x+1)` pipeline would report fold change 1/3 (or -1/3 in the other
orientation) and p-value 4/5. -/
theorem web_engine_raw_slices_counterexample :
    ((WebApp.run_differential_expression pvInst log2Inst []
        [("G1", [1, 1, 1, 0, 3, 0])] [0, 1, 2] [3, 4, 5]).map
      fun r => (r.log2_fold_change, r.p_value)) = [(0, some 1)]
    ∧ listMean ((sliceIdx [1, 1, 1, 0, 3, 0] [0, 1, 2]).map
          fun x => log2Inst (x + 1)) -
        listMean ((sliceIdx [1, 1, 1, 0, 3, 0] [3, 4, 5]).map
          fun x => log2Inst (x + 1)) = 1 / 3
    ∧ ttest_ind pvInst
        ((sliceIdx [1, 1, 1, 0, 3, 0] [0, 1, 2]).map fun x => log2Inst (x + 1))
        ((sliceIdx [1, 1, 1, 0, 3, 0] [3, 4, 5]).map fun x => log2Inst (x + 1)) =
        some (4 / 5)
    ∧ (0 : ℚ) ≠ 1 / 3 ∧ (0 : ℚ) ≠ -(1 / 3)
    ∧ some (1 : ℚ) ≠ some (4 / 5) := by
  refine ⟨by with_unfolding_all decide, by with_unfolding_all decide,
    by with_unfolding_all decide, by with_unfolding_all decide,
    by with_unfolding_all decide, by with_unfolding_all decide⟩

/-! ### C2 -/

/-- Claim C2 (amended): no variant raises an error for undersized groups.
The web variant engine enforces the 3-sample minimum per gene by skipping:
a retained group below 3 samples empties the whole result table (with no
error raised), while groups of at least 3 produce one record per gene.
The enhanced variant performs no minimum-size check at all: any two-label
design, whatever the group sizes, proceeds to a full result table. -/
theorem min_group_size_handling :
    (∀ (pv : ℚ → ℕ → ℚ) (L : ℚ → ℚ) (sm : List (String × String))
        (data : List (String × Row)) (hi lo : List ℕ),
      hi.length < 3 ∨ lo.length < 3 →
      WebApp.run_differential_expression pv L sm data hi lo = [])
    ∧ (∀ (pv : ℚ → ℕ → ℚ) (L : ℚ → ℚ) (sm : List (String × String))
        (data : List (String × Row)) (hi lo : List ℕ),
      3 ≤ hi.length → 3 ≤ lo.length →
      (WebApp.run_differential_expression pv L sm data hi lo).length =
        data.length)
    ∧ (∀ (pv : ℚ → ℕ → ℚ) (L : ℚ → ℚ) (data : List (String × Row))
        (design : List String),
      design.toFinset.card = 2 →
      ∃ recs, Enhanced.run_simple_differential_expression pv L data design =
        .ok recs ∧ recs.length = data.length) := by
  refine ⟨?_, ?_, ?_⟩
  · intro pv L sm data hi lo hsz
    rw [WebApp.run_differential_expression, List.filterMap_eq_nil_iff]
    intro gr _
    simp only [WebApp.webDERecord]
    rw [if_pos]
    simp only [sliceIdx, List.length_map]
    exact hsz
  · intro pv L sm data hi lo hhi hlo
    rw [WebApp.run_differential_expression]
    apply length_filterMap_of_forall_some
    intro gr _
    simp only [WebApp.webDERecord]
    rw [if_neg]
    · rfl
    · simp only [sliceIdx, List.length_map]
      omega
  · intro pv L data design hcard
    have h2 : (uniqueFirst design).length = 2 := by
      rw [uniqueFirst_length]; exact hcard
    refine ⟨_, run_simple_ok_eq pv L data design h2, ?_⟩
    simp [multipletests_length]

/-- Witness for C2: a High group of 2 samples empties the web table; a
3-versus-3 grouping yields one record per gene; a valid two-label design
passes the enhanced check. -/
theorem min_group_size_handling_witness :
    WebApp.run_differential_expression pvInst log2Inst [] exData [0, 1] [2, 3, 4] = []
    ∧ (WebApp.run_differential_expression pvInst log2Inst [] exData
        [0, 1, 2] [3, 4, 5]).length = 2 :=
  ⟨min_group_size_handling.1 pvInst log2Inst [] exData [0, 1] [2, 3, 4]
      (Or.inl (by decide)),
   min_group_size_handling.2.1 pvInst log2Inst [] exData [0, 1, 2] [3, 4, 5]
      (by decide) (by decide)⟩


/-! ### C8 and C9 helpers -/

theorem getD_map_lt {α β : Type} (f : α → β) (l : List α) (i : ℕ) (d : β)
    (h : i < l.length) (d0 : α) : (l.map f).getD i d = f (l.getD i d0) := by
  rw [List.getD_eq_getElem _ _ (by simpa using h), List.getD_eq_getElem _ _ h]
  simp

theorem run_simple_ok_labels (pv : ℚ → ℕ → ℚ) (L : ℚ → ℚ)
    (data : List (String × Row)) (design : List String)
    (recs : List Enhanced.ERecord)
    (h : Enhanced.run_simple_differential_expression pv L data design = .ok recs) :
    (uniqueFirst design).length = 2 := by
  by_cases h2 : (uniqueFirst design).length = 2
  · exact h2
  · rw [Enhanced.run_simple_differential_expression, if_pos h2] at h
    exact absurd h (by simp)

theorem run_simple_map_core {α : Type} (f : Enhanced.ERecord → α)
    (hf : ∀ r p, f { r with padj := p } = f r)
    (pv : ℚ → ℕ → ℚ) (L : ℚ → ℚ) (data : List (String × Row))
    (design : List String) (recs : List Enhanced.ERecord)
    (h : Enhanced.run_simple_differential_expression pv L data design = .ok recs) :
    recs.map f = data.map fun gr => f (Enhanced.simpleDERecord pv L
      (Enhanced.labelPositions design ((uniqueFirst design).getD 0 ""))
      (Enhanced.labelPositions design ((uniqueFirst design).getD 1 "")) gr) := by
  have h2 := run_simple_ok_labels pv L data design recs h
  rw [run_simple_ok_eq pv L data design h2] at h
  simp only [Except.ok.injEq] at h
  subst h
  rw [zipWith_padj_map f hf _ _ (by simp [multipletests_length]), List.map_map]
  rfl

theorem run_simple_ok_length (pv : ℚ → ℕ → ℚ) (L : ℚ → ℚ)
    (data : List (String × Row)) (design : List String)
    (recs : List Enhanced.ERecord)
    (h : Enhanced.run_simple_differential_expression pv L data design = .ok recs) :
    recs.length = data.length := by
  have hm := run_simple_map_core (fun r => r.gene) (fun _ _ => rfl)
    pv L data design recs h
  have := congrArg List.length hm
  simpa using this

theorem listMean_replicate (n : ℕ) (c : ℚ) (h : n ≠ 0) :
    listMean (List.replicate n c) = c := by
  have hc : (n : ℚ) ≠ 0 := by exact_mod_cast h
  simp only [listMean, List.sum_replicate, List.length_replicate, nsmul_eq_mul]
  rw [mul_comm, mul_div_assoc, div_self hc, mul_one]

theorem svar_replicate (n : ℕ) (c : ℚ) (h : n ≠ 0) :
    svar (List.replicate n c) = 0 := by
  simp only [svar, List.map_replicate, listMean_replicate n c h, sub_self]
  simp

theorem ttest_ind_const (pv : ℚ → ℕ → ℚ) (c : ℚ) (n1 n2 : ℕ)
    (h1 : 2 ≤ n1) (h2 : 2 ≤ n2) :
    ttest_ind pv (List.replicate n1 c) (List.replicate n2 c) = none := by
  simp only [ttest_ind, List.length_replicate]
  rw [if_neg (by omega)]
  simp only [svar_replicate n1 c (by omega), svar_replicate n2 c (by omega),
    listMean_replicate n1 c (by omega), listMean_replicate n2 c (by omega),
    mul_zero, add_zero, zero_div, zero_mul, sub_self]
  simp

/-! ### C8 -/

/-- Claim C8 (amended): a gene row that is constant across both groups has
an undefined pooled statistic, and the engine retains its record with NaN
p-value rather than omitting it; the batch does not fail (one record per
gene row, always), and each record of the cited engine columns (gene, base
mean, fold change, raw p-value) is a function of the gene row alone, so a
degenerate gene leaves every other gene record of those columns unchanged
(the shared adjusted-p column is coupled through the correction and is
NaN-poisoned by any NaN p-value, see the counterexample). -/
theorem degenerate_gene_isolated (pv : ℚ → ℕ → ℚ) (L : ℚ → ℚ)
    (design : List String) (data1 data2 : List (String × Row))
    (recs1 recs2 : List Enhanced.ERecord) (i : ℕ)
    (h1 : Enhanced.run_simple_differential_expression pv L data1 design = .ok recs1)
    (h2 : Enhanced.run_simple_differential_expression pv L data2 design = .ok recs2)
    (hi1 : i < data1.length) (hi2 : i < data2.length)
    (heq : data1.getD i ("", []) = data2.getD i ("", [])) :
    recs1.length = data1.length
    ∧ ((recs1.getD i ⟨"", 0, 0, none, none⟩).gene,
        (recs1.getD i ⟨"", 0, 0, none, none⟩).baseMean,
        (recs1.getD i ⟨"", 0, 0, none, none⟩).log2FoldChange,
        (recs1.getD i ⟨"", 0, 0, none, none⟩).pvalue) =
      ((recs2.getD i ⟨"", 0, 0, none, none⟩).gene,
        (recs2.getD i ⟨"", 0, 0, none, none⟩).baseMean,
        (recs2.getD i ⟨"", 0, 0, none, none⟩).log2FoldChange,
        (recs2.getD i ⟨"", 0, 0, none, none⟩).pvalue)
    ∧ ∀ (c : ℚ) (n1 n2 : ℕ), 2 ≤ n1 → 2 ≤ n2 →
        ttest_ind pv (List.replicate n1 c) (List.replicate n2 c) = none := by
  refine ⟨run_simple_ok_length pv L data1 design recs1 h1, ?_, ?_⟩
  · have hm1 := run_simple_map_core
      (fun r => (r.gene, r.baseMean, r.log2FoldChange, r.pvalue))
      (fun _ _ => rfl) pv L data1 design recs1 h1
    have hm2 := run_simple_map_core
      (fun r => (r.gene, r.baseMean, r.log2FoldChange, r.pvalue))
      (fun _ _ => rfl) pv L data2 design recs2 h2
    have hl1 := run_simple_ok_length pv L data1 design recs1 h1
    have hl2 := run_simple_ok_length pv L data2 design recs2 h2
    have e1 := getD_map_lt
      (fun r => (r.gene, r.baseMean, r.log2FoldChange, r.pvalue)) recs1 i
      (("" : String), (0 : ℚ), (0 : ℚ), (none : Option ℚ))
      (by omega) ⟨"", 0, 0, none, none⟩
    have e2 := getD_map_lt
      (fun r => (r.gene, r.baseMean, r.log2FoldChange, r.pvalue)) recs2 i
      (("" : String), (0 : ℚ), (0 : ℚ), (none : Option ℚ))
      (by omega) ⟨"", 0, 0, none, none⟩
    have g1 := getD_map_lt (fun gr => ((Enhanced.simpleDERecord pv L
      (Enhanced.labelPositions design ((uniqueFirst design).getD 0 ""))
      (Enhanced.labelPositions design ((uniqueFirst design).getD 1 "")) gr).gene,
      (Enhanced.simpleDERecord pv L
      (Enhanced.labelPositions design ((uniqueFirst design).getD 0 ""))
      (Enhanced.labelPositions design ((uniqueFirst design).getD 1 "")) gr).baseMean,
      (Enhanced.simpleDERecord pv L
      (Enhanced.labelPositions design ((uniqueFirst design).getD 0 ""))
      (Enhanced.labelPositions design ((uniqueFirst design).getD 1 "")) gr).log2FoldChange,
      (Enhanced.simpleDERecord pv L
      (Enhanced.labelPositions design ((uniqueFirst design).getD 0 ""))
      (Enhanced.labelPositions design ((uniqueFirst design).getD 1 "")) gr).pvalue))
      data1 i (("" : String), (0 : ℚ), (0 : ℚ), (none : Option ℚ)) hi1 ("", [])
    have g2 := getD_map_lt (fun gr => ((Enhanced.simpleDERecord pv L
      (Enhanced.labelPositions design ((uniqueFirst design).getD 0 ""))
      (Enhanced.labelPositions design ((uniqueFirst design).getD 1 "")) gr).gene,
      (Enhanced.simpleDERecord pv L
      (Enhanced.labelPositions design ((uniqueFirst design).getD 0 ""))
      (Enhanced.labelPositions design ((uniqueFirst design).getD 1 "")) gr).baseMean,
      (Enhanced.simpleDERecord pv L
      (Enhanced.labelPositions design ((uniqueFirst design).getD 0 ""))
      (Enhanced.labelPositions design ((uniqueFirst design).getD 1 "")) gr).log2FoldChange,
      (Enhanced.simpleDERecord pv L
      (Enhanced.labelPositions design ((uniqueFirst design).getD 0 ""))
      (Enhanced.labelPositions design ((uniqueFirst design).getD 1 "")) gr).pvalue))
      data2 i (("" : String), (0 : ℚ), (0 : ℚ), (none : Option ℚ)) hi2 ("", [])
    rw [← e1, ← e2, hm1, hm2, g1, g2, heq]
  · intro c n1 n2 hn1 hn2
    exact ttest_ind_const pv c n1 n2 hn1 hn2

/-- Concrete data containing a gene row that is constant in both groups. -/
def degData : List (String × Row) := [("G1", [1, 1, 1, 1, 1, 1]), ("G2", [0, 0, 1, 7, 7, 3])]

/-- Counterexample for C8 as stated: the constant gene G1 is not omitted;
it is retained with NaN statistic and p-value, and its presence flips the
adjusted p-value of the unrelated gene G2 from a number to NaN. -/
theorem degenerate_gene_retained_counterexample :
    Enhanced.run_simple_differential_expression pvInst log2Inst degData exDesign =
      .ok [⟨"G1", 1, 0, none, none⟩, ⟨"G2", 3, 7 / 3, some (2 / 51), none⟩]
    ∧ Enhanced.run_simple_differential_expression pvInst log2Inst
        [("G2", [0, 0, 1, 7, 7, 3])] exDesign =
      .ok [⟨"G2", 3, 7 / 3, some (2 / 51), some (2 / 51)⟩] :=
  ⟨by with_unfolding_all rfl, by with_unfolding_all rfl⟩

/-- Witness for C8: the two runs of the theorem instantiated with the same
concrete dataset on both sides, at gene index 1. -/
theorem degenerate_gene_isolated_witness :
    ((exRecs.getD 1 ⟨"", 0, 0, none, none⟩).gene,
      (exRecs.getD 1 ⟨"", 0, 0, none, none⟩).baseMean,
      (exRecs.getD 1 ⟨"", 0, 0, none, none⟩).log2FoldChange,
      (exRecs.getD 1 ⟨"", 0, 0, none, none⟩).pvalue) =
    ((exRecs.getD 1 ⟨"", 0, 0, none, none⟩).gene,
      (exRecs.getD 1 ⟨"", 0, 0, none, none⟩).baseMean,
      (exRecs.getD 1 ⟨"", 0, 0, none, none⟩).log2FoldChange,
      (exRecs.getD 1 ⟨"", 0, 0, none, none⟩).pvalue) :=
  (degenerate_gene_isolated pvInst log2Inst exDesign exData exData exRecs exRecs 1
    (by with_unfolding_all rfl) (by with_unfolding_all rfl)
    (by decide) (by decide) rfl).2.1

/-! ### C9 -/

/-- Claim C9 (amended): the web variant sorts its final table by ascending
adjusted p-value before returning it; the enhanced variant engine returns
its table in the input gene order, without sorting by adjusted p-value. -/
theorem result_table_ordering :
    (∀ (pv : ℚ → ℕ → ℚ) (L : ℚ → ℚ) (sm : List (String × String))
        (data : List (String × Row)) (hi lo : List ℕ) (pth fcth : ℚ)
        (out : List WebApp.WFinal),
      WebApp.analysis_run pv L sm data hi lo pth fcth = .ok out →
      List.Sorted WebApp.wLe out)
    ∧ (∀ (pv : ℚ → ℕ → ℚ) (L : ℚ → ℚ) (data : List (String × Row))
        (design : List String) (recs : List Enhanced.ERecord),
      Enhanced.run_simple_differential_expression pv L data design = .ok recs →
      recs.map (fun r => r.gene) = data.map fun gr => gr.1) := by
  constructor
  · intro pv L sm data hi lo pth fcth out h
    rw [WebApp.analysis_run] at h
    split at h
    · exact absurd h (by simp)
    · simp only [Except.ok.injEq] at h
      subst h
      exact List.sorted_insertionSort WebApp.wLe _
  · intro pv L data design recs h
    rw [run_simple_map_core (fun r => r.gene) (fun _ _ => rfl)
      pv L data design recs h]
    rfl

/-- Witness for C9: a one-row web run is sorted, and the enhanced run on
the concrete dataset returns the genes in input order. -/
theorem result_table_ordering_witness :
    List.Sorted WebApp.wLe [⟨⟨"G1", "G1", 0, some 1, 1, 1⟩, 1, .ns⟩]
    ∧ exRecs.map (fun r => r.gene) = exData.map fun gr => gr.1 :=
  ⟨(result_table_ordering.1 pvInst log2Inst [] [("G1", [1, 1, 1, 0, 3, 0])]
      [0, 1, 2] [3, 4, 5] (1 / 20) 1 _ (by with_unfolding_all rfl)),
   result_table_ordering.2 pvInst log2Inst exData exDesign exRecs
      (by with_unfolding_all rfl)⟩

/-- Counterexample for C9 as stated: the enhanced engine returns the table
with adjusted p-values 2/3 followed by 4/51, which is not ascending. -/
theorem enhanced_table_not_sorted_counterexample :
    Enhanced.run_simple_differential_expression pvInst log2Inst exData exDesign =
      .ok exRecs
    ∧ exRecs.map (fun r => r.padj) = [some (2 / 3), some (4 / 51)]
    ∧ ¬((2 : ℚ) / 3 ≤ 4 / 51) :=
  ⟨by with_unfolding_all rfl, by with_unfolding_all decide,
   by with_unfolding_all decide⟩

/-- Counterexample for C2 as stated: a stratification with a retained
group of exactly 2 samples (label A) raises nothing; the enhanced
analysis proceeds and returns a full result table. -/
theorem undersized_group_proceeds :
    Enhanced.run_simple_differential_expression pvInst log2Inst smallData
        smallDesign =
      .ok [⟨"G1", 14 / 5, 11 / 6, some (35 / 398), some (35 / 398)⟩]
    ∧ (Enhanced.labelPositions smallDesign "A").length = 2 :=
  ⟨by with_unfolding_all rfl, rfl⟩


/-! ### C4 helpers -/

theorem suffixMins_length : ∀ l : List ℚ, (suffixMins l).length = l.length := by
  intro l
  induction l with
  | nil => rfl
  | cons x xs ih => simp [suffixMins, ih]

theorem suffixMins_cons (x : ℚ) (xs : List ℚ) :
    suffixMins (x :: xs) = min x ((suffixMins xs).headD x) :: suffixMins xs := rfl

theorem bhScaledFrom_length (m : ℕ) :
    ∀ (l : List ℚ) (k : ℕ), (bhScaledFrom m k l).length = l.length := by
  intro l
  induction l with
  | nil => intro k; rfl
  | cons p rest ih =>
    intro k
    simp only [bhScaledFrom, List.length_cons, ih (k + 1)]

theorem bhScaledFrom_cons (m k : ℕ) (p : ℚ) (rest : List ℚ) :
    bhScaledFrom m k (p :: rest) =
      p * m / (k + 1) :: bhScaledFrom m (k + 1) rest := rfl

theorem suffixMins_sorted : ∀ l : List ℚ, List.Sorted (· ≤ ·) (suffixMins l) := by
  intro l
  induction l with
  | nil => simp [suffixMins]
  | cons x xs ih =>
    rw [suffixMins_cons, List.sorted_cons]
    refine ⟨?_, ih⟩
    intro b hb
    cases hT : suffixMins xs with
    | nil =>
      rw [hT] at hb
      simp at hb
    | cons y ys =>
      rw [hT] at hb ih
      simp only [List.headD_cons]
      rcases List.mem_cons.1 hb with hb1 | hb2
      · subst hb1
        exact min_le_right x b
      · exact le_trans (min_le_right x y) ((List.sorted_cons.1 ih).1 b hb2)

theorem le_suffixMins :
    ∀ (s : List ℚ) (k m : ℕ), List.Sorted (· ≤ ·) s → (∀ p ∈ s, 0 ≤ p) →
      k + s.length ≤ m →
      List.Forall₂ (· ≤ ·) s (suffixMins (bhScaledFrom m k s)) := by
  intro s
  induction s with
  | nil => intro k m _ _ _; simp [bhScaledFrom, suffixMins]
  | cons p rest ih =>
    intro k m hs hpos hkm
    rw [List.sorted_cons] at hs
    have hp0 : 0 ≤ p := hpos p (by simp)
    have hk1m : (k + 1 : ℕ) ≤ m := by
      simp only [List.length_cons] at hkm
      omega
    have hpscale : p ≤ p * m / ((k : ℚ) + 1) := by
      rw [mul_div_assoc]
      have h1 : (1 : ℚ) ≤ (m : ℚ) / ((k : ℚ) + 1) := by
        rw [le_div_iff₀ (by positivity), one_mul]
        exact_mod_cast hk1m
      calc p = p * 1 := (mul_one p).symm
        _ ≤ p * ((m : ℚ) / ((k : ℚ) + 1)) := mul_le_mul_of_nonneg_left h1 hp0
    cases rest with
    | nil =>
      simp only [bhScaledFrom, suffixMins, List.headD_nil, min_self]
      refine List.Forall₂.cons ?_ List.Forall₂.nil
      simpa using hpscale
    | cons q rest2 =>
      have hih := ih (k + 1) m hs.2 (fun x hx => hpos x (by simp [hx]))
        (by simp only [List.length_cons] at hkm ⊢; omega)
      rw [bhScaledFrom_cons, suffixMins_cons]
      cases hT : suffixMins (bhScaledFrom m (k + 1) (q :: rest2)) with
      | nil =>
        have hlen := List.Forall₂.length_eq hih
        rw [hT] at hlen
        simp at hlen
      | cons y ys =>
        rw [hT] at hih
        simp only [List.headD_cons]
        obtain ⟨hqy, htail⟩ := List.forall₂_cons.1 hih
        refine List.Forall₂.cons ?_ hih
        refine le_min ?_ (le_trans (hs.1 q (by simp)) hqy)
        simpa using hpscale

theorem indexOf_mono_sorted (s : List ℚ) (hs : List.Sorted (· ≤ ·) s)
    (p q : ℚ) (hp : p ∈ s) (hq : q ∈ s) (hpq : p ≤ q) :
    s.indexOf p ≤ s.indexOf q := by
  by_contra hlt
  push_neg at hlt
  have hip : s.indexOf p < s.length := List.indexOf_lt_length.2 hp
  have hiq : s.indexOf q < s.length := List.indexOf_lt_length.2 hq
  have hget : s.get ⟨s.indexOf q, hiq⟩ ≤ s.get ⟨s.indexOf p, hip⟩ :=
    hs.rel_get_of_lt hlt
  rw [List.indexOf_get, List.indexOf_get] at hget
  have hpqe : p = q := le_antisymm hpq hget
  subst hpqe
  exact lt_irrefl _ hlt

theorem sorted_getD_mono (l : List ℚ) (hl : List.Sorted (· ≤ ·) l)
    (i j : ℕ) (d : ℚ) (hij : i ≤ j) (hj : j < l.length) :
    l.getD i d ≤ l.getD j d := by
  have hi : i < l.length := lt_of_le_of_lt hij hj
  rw [List.getD_eq_getElem _ _ hi, List.getD_eq_getElem _ _ hj]
  rcases eq_or_lt_of_le hij with heq | hlt
  · subst heq
    exact le_refl _
  · have hrel := hl.rel_get_of_lt (a := ⟨i, hi⟩) (b := ⟨j, hj⟩) hlt
    simpa using hrel

/-! ### C4 -/

/-- Claim C4: the multiple-testing correction is the Benjamini-Hochberg
procedure of the spec; for every vector of raw p-values in the unit
interval it returns a vector of the same length and order in which every
adjusted value is at least its raw value and lies in the unit interval,
rank order is preserved, and both library entry points (the validating
scipy one and the statsmodels one) reduce to this same procedure. -/
theorem bh_adjust_spec (ps : List ℚ) (hps : ∀ p ∈ ps, 0 ≤ p ∧ p ≤ 1) :
    (bh_adjust ps).length = ps.length
    ∧ (∀ i, i < ps.length →
        ps.getD i 0 ≤ (bh_adjust ps).getD i 0
        ∧ 0 ≤ (bh_adjust ps).getD i 0 ∧ (bh_adjust ps).getD i 0 ≤ 1)
    ∧ (∀ i j, i < ps.length → j < ps.length →
        ps.getD i 0 ≤ ps.getD j 0 →
        (bh_adjust ps).getD i 0 ≤ (bh_adjust ps).getD j 0)
    ∧ false_discovery_control (ps.map some) = .ok (bh_adjust ps)
    ∧ multipletests_fdr_bh (ps.map some) = (bh_adjust ps).map some := by
  have hsort := List.sorted_insertionSort (α := ℚ) (· ≤ ·) ps
  have hslen := List.length_insertionSort (α := ℚ) (· ≤ ·) ps
  have hpos : ∀ x ∈ List.insertionSort (· ≤ ·) ps, 0 ≤ x := fun x hx =>
    (hps x ((List.mem_insertionSort _).1 hx)).1
  have hfa := le_suffixMins (List.insertionSort (· ≤ ·) ps) 0 ps.length hsort
    hpos (by simp [hslen])
  have hsuffLen : (suffixMins (bhScaledFrom ps.length 0
      (List.insertionSort (· ≤ ·) ps))).length = ps.length := by
    rw [suffixMins_length, bhScaledFrom_length, hslen]
  obtain ⟨hfl, hfget⟩ := List.forall₂_iff_get.1 hfa
  have hval : ∀ p ∈ ps,
      p ≤ (suffixMins (bhScaledFrom ps.length 0
        (List.insertionSort (· ≤ ·) ps))).getD
          ((List.insertionSort (· ≤ ·) ps).indexOf p) 0 := by
    intro p hp
    have hpm : p ∈ List.insertionSort (· ≤ ·) ps :=
      (List.mem_insertionSort _).2 hp
    have hidx := List.indexOf_lt_length.2 hpm
    have hidx2 : (List.insertionSort (· ≤ ·) ps).indexOf p <
        (suffixMins (bhScaledFrom ps.length 0
          (List.insertionSort (· ≤ ·) ps))).length := by
      rw [hsuffLen, ← hslen]
      exact hidx
    have hg := hfget ((List.insertionSort (· ≤ ·) ps).indexOf p) hidx hidx2
    rw [List.indexOf_get] at hg
    rw [List.getD_eq_getElem _ _ hidx2]
    simpa using hg
  have hmem : ∀ i, i < ps.length → ps.getD i 0 ∈ ps := by
    intro i hi
    rw [List.getD_eq_getElem _ _ hi]
    exact List.getElem_mem hi
  have hmapD : ∀ i, i < ps.length → (bh_adjust ps).getD i 0 =
      min 1 (max 0 ((suffixMins (bhScaledFrom ps.length 0
        (List.insertionSort (· ≤ ·) ps))).getD
          ((List.insertionSort (· ≤ ·) ps).indexOf (ps.getD i 0)) 0)) := by
    intro i hi
    have hidx : (List.insertionSort (· ≤ ·) ps).indexOf (ps.getD i 0) <
        (suffixMins (bhScaledFrom ps.length 0
          (List.insertionSort (· ≤ ·) ps))).length := by
      rw [hsuffLen, ← hslen]
      exact List.indexOf_lt_length.2 ((List.mem_insertionSort _).2 (hmem i hi))
    simp only [bh_adjust]
    rw [getD_map_lt _ ps i 0 hi 0, getD_map_lt _ _ _ 1 hidx 0]
  refine ⟨by simp [bh_adjust], ?_, ?_, ?_, ?_⟩
  · intro i hi
    rw [hmapD i hi]
    refine ⟨?_, ?_, min_le_left _ _⟩
    · exact le_min (hps _ (hmem i hi)).2
        (le_trans (hval _ (hmem i hi)) (le_max_right _ _))
    · exact le_min zero_le_one (le_max_left _ _)
  · intro i j hi hj hle
    rw [hmapD i hi, hmapD j hj]
    have hidxj : (List.insertionSort (· ≤ ·) ps).indexOf (ps.getD j 0) <
        (suffixMins (bhScaledFrom ps.length 0
          (List.insertionSort (· ≤ ·) ps))).length := by
      rw [hsuffLen, ← hslen]
      exact List.indexOf_lt_length.2 ((List.mem_insertionSort _).2 (hmem j hj))
    have hidxmono := indexOf_mono_sorted _ hsort _ _
      ((List.mem_insertionSort _).2 (hmem i hi))
      ((List.mem_insertionSort _).2 (hmem j hj)) hle
    have hmono := sorted_getD_mono _ (suffixMins_sorted _) _ _ 0 hidxmono hidxj
    exact min_le_min (le_refl 1) (max_le_max (le_refl 0) hmono)
  · have hall : (ps.map some).all validP = true := by
      rw [List.all_eq_true]
      intro x hx
      obtain ⟨p, hp, hpx⟩ := List.mem_map.1 hx
      subst hpx
      simp only [validP, Bool.and_eq_true, decide_eq_true_eq]
      exact hps p hp
    rw [false_discovery_control, if_pos hall, List.filterMap_map]
    have hcomp : (id ∘ some : ℚ → Option ℚ) = some := rfl
    rw [hcomp, List.filterMap_some]
  · have hall : (ps.map some).all Option.isSome = true := by
      rw [List.all_eq_true]
      intro x hx
      obtain ⟨p, _, hpx⟩ := List.mem_map.1 hx
      subst hpx
      rfl
    rw [multipletests_fdr_bh, if_pos hall, List.filterMap_map]
    have hcomp : (id ∘ some : ℚ → Option ℚ) = some := rfl
    rw [hcomp, List.filterMap_some]

/-- Witness for C4 at a concrete vector: the adjusted values of
`[1/2, 1/4]` are `[1/2, 1/2]` (the rank-1 value 1/4 scales to 1/2 and the
running minimum of the rank-2 value meets it). -/
theorem bh_adjust_spec_witness :
    (bh_adjust [1 / 2, 1 / 4]).length = 2
    ∧ bh_adjust [1 / 2, 1 / 4] = [1 / 2, 1 / 2] :=
  ⟨(bh_adjust_spec [1 / 2, 1 / 4] (by with_unfolding_all decide)).1,
   by with_unfolding_all decide⟩

/-- Witness for C3: resolution against an empty key list fails. -/
theorem find_target_gene_spec_witness :
    WebApp.find_target_gene [("ENSG1", "TP53")] [] "tp53" = none :=
  (find_target_gene_spec.1 [("ENSG1", "TP53")] [] "tp53").mpr
    (by with_unfolding_all decide)

end Prairie
